import Mathlib

/-!
Verification of the masked-decoding controller in
`x_transformers/nonautoregressive_wrapper.py`.

The controller wraps an opaque sequence model.  We embed the pure
control logic shallowly:

* a batch row of length `L` is a function `Fin L → ℕ` (token ids) together
  with a boolean mask `Fin L → Bool`;
* per-position logits over a vocabulary of size `V` are `Fin V → ℚ`;
* the opaque model query, the softmax and the multinomial draw are
  abstracted into per-round oracles: `sampledO i seq` gives the token id
  drawn at each position in round `i` (the real draw returns ids with
  positive softmax probability, hence ids `< V`, which theorems take as a
  hypothesis), and `scoresO i seq` gives the gathered probability based
  score `1 - P(sampled token)` per position (a value in `[0, 1]`,
  likewise a hypothesis where needed);
* float tensors become `ℚ`; `.long()` becomes truncation toward zero;
  `torch.finfo(dtype).max` becomes the exact value of the largest finite
  `float32`.
-/

namespace NAW

/-- Source `linear_schedule(t) = 1 - t` (`nonautoregressive_wrapper.py` line 29). -/
def linear_schedule (t : ℚ) : ℚ := 1 - t

/-- Embedding of the tensor `.long()` cast: truncation of a rational toward zero. -/
def ratTrunc (q : ℚ) : ℤ := if 0 ≤ q then ⌊q⌋ else ⌈q⌉

/-- The largest finite `float32`, `torch.finfo(torch.float32).max`, as an exact
rational: `(2 - 2 ^ (-23)) * 2 ^ 127 = 2 ^ 128 - 2 ^ 104`. -/
def floatMax : ℚ := 340282346638528859811704183484516925440

theorem floatMax_pos : 0 < floatMax := by norm_num [floatMax]

theorem floatMax_eq : floatMax = 2 ^ 128 - 2 ^ 104 := by norm_num [floatMax]

/-- Comparison relation ordering positions by their score, descending; the
order used by `torch.topk` to pick the `k` largest entries. -/
def scoreGE {n : ℕ} (val : Fin n → ℚ) (i j : Fin n) : Prop := val j ≤ val i

instance {n : ℕ} (val : Fin n → ℚ) : DecidableRel (scoreGE val) :=
  fun i j => inferInstanceAs (Decidable (val j ≤ val i))

instance {n : ℕ} (val : Fin n → ℚ) : IsTotal (Fin n) (scoreGE val) :=
  ⟨fun i j => le_total (val j) (val i)⟩

instance {n : ℕ} (val : Fin n → ℚ) : IsTrans (Fin n) (scoreGE val) :=
  ⟨fun _ _ _ hab hbc => le_trans hbc hab⟩

/-- Embedding of `tensor.topk(k, dim = -1).indices` on one slice: the indices
of `k` largest values.  `torch.topk` returns some `k` indices carrying the
`k` largest values; we fix the deterministic representative that sorts
positions by value (stable, descending) and takes the first `k`.  All
theorems about it only use properties shared by every valid topk result. -/
def topkSel (n : ℕ) (val : Fin n → ℚ) (k : ℕ) : List (Fin n) :=
  ((List.finRange n).insertionSort (scoreGE val)).take k

theorem topkSel_length (n : ℕ) (val : Fin n → ℚ) (k : ℕ) :
    (topkSel n val k).length = min k n := by
  simp [topkSel, List.length_take]

theorem topkSel_nodup (n : ℕ) (val : Fin n → ℚ) (k : ℕ) : (topkSel n val k).Nodup :=
  (List.take_sublist _ _).nodup
    ((List.perm_insertionSort (scoreGE val) (List.finRange n)).nodup_iff.mpr
      (List.nodup_finRange n))

/-- Separation property of top-k selection: every value outside the selected
index set is at most every value inside it. -/
theorem topkSel_sep (n : ℕ) (val : Fin n → ℚ) (k : ℕ) {i j : Fin n}
    (hj : j ∈ topkSel n val k) (hi : i ∉ topkSel n val k) : val i ≤ val j := by
  have hsorted : List.Sorted (scoreGE val) ((List.finRange n).insertionSort (scoreGE val)) :=
    List.sorted_insertionSort (scoreGE val) (List.finRange n)
  have hsplit := List.take_append_drop k ((List.finRange n).insertionSort (scoreGE val))
  have hpw : List.Pairwise (scoreGE val)
      (List.take k ((List.finRange n).insertionSort (scoreGE val)) ++
        List.drop k ((List.finRange n).insertionSort (scoreGE val))) := by
    rw [hsplit]; exact hsorted
  have hmem : i ∈ (List.finRange n).insertionSort (scoreGE val) := by
    simp [List.mem_insertionSort]
  have hidrop : i ∈ List.drop k ((List.finRange n).insertionSort (scoreGE val)) := by
    rcases List.mem_append.mp (hsplit ▸ hmem) with h | h
    · exact absurd h hi
    · exact h
  exact (List.pairwise_append.mp hpw).2.2 j hj i hidrop

/-- The finset of indices selected by top-k. -/
theorem topkSel_toFinset_card (n : ℕ) (val : Fin n → ℚ) (k : ℕ) :
    (topkSel n val k).toFinset.card = min k n := by
  rw [List.toFinset_card_of_nodup (topkSel_nodup n val k), topkSel_length]

/-- Embedding of the helper `top_k(logits, thres)` (lines 20-25) on one
position's logit slice.  `k = math.ceil((1 - thres) * V)`; a fresh buffer is
filled with `-inf` and the top-`k` values are scattered back at their
indices.  A `-inf` entry is represented by `none` (after the softmax such an
entry has probability exactly zero and can never be drawn by
`torch.multinomial`); a retained entry keeps its logit as `some`. -/
def top_k (V : ℕ) (logits : Fin V → ℚ) (thres : ℚ) : Fin V → Option ℚ :=
  fun i =>
    if i ∈ topkSel V logits (⌈(1 - thres) * (V : ℚ)⌉).toNat then some (logits i) else none

/-- Truncation toward zero of a nonnegative rational is its floor. -/
theorem ratTrunc_of_nonneg {q : ℚ} (h : 0 ≤ q) : ratTrunc q = ⌊q⌋ := if_pos h

theorem ratTrunc_nonneg {q : ℚ} (h : 0 ≤ q) : 0 ≤ ratTrunc q := by
  rw [ratTrunc_of_nonneg h]; exact Int.floor_nonneg.mpr h

theorem ratTrunc_mono {q r : ℚ} (hq : 0 ≤ q) (h : q ≤ r) : ratTrunc q ≤ ratTrunc r := by
  rw [ratTrunc_of_nonneg hq, ratTrunc_of_nonneg (le_trans hq h)]
  exact Int.floor_le_floor h

/-- Truncating `p * L` for a fraction `p ≤ 1` stays at most `L`. -/
theorem ratTrunc_frac_le {p : ℚ} (L : ℕ) (h1 : p ≤ 1) : ratTrunc (p * L) ≤ L := by
  rcases le_or_lt 0 (p * L) with h | h
  · rw [ratTrunc_of_nonneg h]
    have hle : (p * (L : ℚ)) ≤ (L : ℚ) := by
      calc (p * (L : ℚ)) ≤ 1 * L := mul_le_mul_of_nonneg_right h1 (Nat.cast_nonneg L)
        _ = L := one_mul _
    calc ⌊p * (L : ℚ)⌋ ≤ ⌊(L : ℚ)⌋ := Int.floor_le_floor hle
      _ = L := Int.floor_natCast L
  · rw [ratTrunc, if_neg (not_le.mpr h)]
    have : (⌈p * (L : ℚ)⌉ : ℤ) ≤ 0 := Int.ceil_le.mpr (by exact_mod_cast h.le)
    exact this.trans (by exact_mod_cast Nat.zero_le L)

/-- Line 76: `times = torch.linspace(0., 1., steps + 1)`, so `times[i] = i / S`. -/
def timeGrid (S i : ℕ) : ℚ := (i : ℚ) / (S : ℚ)

/-- Line 87: `all_mask_num_tokens = (schedule_fn(times[1:]) * max_seq_len).long()` —
the per-round target masked counts, one `Int64` per round, truncated toward
zero from `schedule_fn(times[i+1]) * L`. -/
def allMaskNumTokens (f : ℚ → ℚ) (S L : ℕ) : List ℤ :=
  (List.range S).map fun i => ratTrunc (f (timeGrid S (i + 1)) * (L : ℚ))

theorem allMaskNumTokens_getD (f : ℚ → ℚ) (S L : ℕ) {i : ℕ} (hi : i < S) :
    (allMaskNumTokens f S L).getD i 0 = ratTrunc (f (timeGrid S (i + 1)) * (L : ℚ)) := by
  rw [allMaskNumTokens, List.getD_eq_getElem?_getD, List.getElem?_map, List.getElem?_range hi]
  rfl

/-- One example's generation state: the sequence buffer `seq` and the boolean
mask buffer `mask` (lines 82-83), both of fixed length `L = max_seq_len`. -/
structure GenState (L : ℕ) where
  seq : Fin L → ℕ
  mask : Fin L → Bool

/-- Lines 82-83: `seq = torch.full(shape, mask_id)`, `mask = torch.full(shape, True)`. -/
def initGenState (mask_id L : ℕ) : GenState L :=
  { seq := fun _ => mask_id, mask := fun _ => true }

/-- Number of masked positions of one example. -/
def maskedCount {L : ℕ} (s : GenState L) : ℕ :=
  (Finset.univ.filter fun i => s.mask i = true).card

/-- One round of the body of the generation loop (lines 90-117) for one
example, with the model query, softmax, temperature and multinomial draw
abstracted into the per-position draws `sampled` and the per-position
confidence-inverse scores `scores` (`1 - P(sampled token)`).  In order:
`seq = torch.where(mask, sampled_ids, seq)` (line 106),
`scores = scores.masked_fill(~mask, -torch.finfo.max)` (line 114),
`mask_indices = scores.topk(mask_num_tokens).indices` (line 115),
`mask = zeros.scatter(1, mask_indices, True)` (line 116),
`seq = seq.masked_fill(mask, mask_id)` (line 117).
The `if mask_num_tokens == 0: pass` branch (lines 111-112) is a no-op. -/
def genStep (mask_id : ℕ) {L : ℕ} (numMask : ℕ) (sampled : Fin L → ℕ)
    (scores : Fin L → ℚ) (s : GenState L) : GenState L :=
  let seq1 : Fin L → ℕ := fun i => if s.mask i then sampled i else s.seq i
  let scores1 : Fin L → ℚ := fun i => if s.mask i then scores i else -floatMax
  let maskIdx : List (Fin L) := topkSel L scores1 numMask
  let mask1 : Fin L → Bool := fun i => decide (i ∈ maskIdx)
  { seq := fun i => if mask1 i then mask_id else seq1 i, mask := mask1 }

/-- The generation loop state after `i` rounds (line 89: the `for` loop runs
once per entry of `all_mask_num_tokens` zipped with `reversed(range(steps))`,
i.e. exactly `S` times, round `i` consuming `all_mask_num_tokens[i]`).
`sampledO i seq` / `scoresO i seq` are the abstracted sampling results of
round `i` given the sequence buffer the model was queried with (the
countdown `steps_until_x0 = S - 1 - i` only feeds the sampling temperature,
which is absorbed into the oracles). -/
def genRounds (mask_id : ℕ) {L : ℕ} (f : ℚ → ℚ) (S : ℕ)
    (sampledO : ℕ → (Fin L → ℕ) → Fin L → ℕ)
    (scoresO : ℕ → (Fin L → ℕ) → Fin L → ℚ) : ℕ → GenState L
  | 0 => initGenState mask_id L
  | i + 1 =>
      let s := genRounds mask_id f S sampledO scoresO i
      genStep mask_id ((allMaskNumTokens f S L).getD i 0).toNat
        (sampledO i s.seq) (scoresO i s.seq) s

/-- The sequence buffers passed to the model query `self.net(seq, **kwargs)`
(line 90), one per executed round. -/
def netQueries (mask_id : ℕ) {L : ℕ} (f : ℚ → ℚ) (S : ℕ)
    (sampledO : ℕ → (Fin L → ℕ) → Fin L → ℕ)
    (scoresO : ℕ → (Fin L → ℕ) → Fin L → ℚ) : List (Fin L → ℕ) :=
  (List.range S).map fun i => (genRounds mask_id f S sampledO scoresO i).seq

/-- One example's final sequence buffer after all `S` rounds. -/
def generateRow (mask_id : ℕ) {L : ℕ} (f : ℚ → ℚ) (S : ℕ)
    (sampledO : ℕ → (Fin L → ℕ) → Fin L → ℕ)
    (scoresO : ℕ → (Fin L → ℕ) → Fin L → ℚ) : Fin L → ℕ :=
  (genRounds mask_id f S sampledO scoresO S).seq

/-- Embedding of `generate` (lines 61-124): `sample_one = batch_size is None`, the batch
size defaults to `1`, each of the `B` examples evolves independently
(oracles indexed by example), and when `sample_one` the singleton batch
dimension is stripped (line 122: `rearrange(seq, '1 n -> n')`). -/
def generate (mask_id : ℕ) {L : ℕ} (f : ℚ → ℚ) (S : ℕ) (batch_size : Option ℕ)
    (sampledO : ℕ → ℕ → (Fin L → ℕ) → Fin L → ℕ)
    (scoresO : ℕ → ℕ → (Fin L → ℕ) → Fin L → ℚ) :
    (Fin L → ℕ) ⊕ List (Fin L → ℕ) :=
  match batch_size with
  | none => Sum.inl (generateRow mask_id f S (sampledO 0) (scoresO 0))
  | some B =>
      Sum.inr ((List.range B).map fun b => generateRow mask_id f S (sampledO b) (scoresO b))

theorem genStep_mask_eq (mask_id : ℕ) {L : ℕ} (k : ℕ) (sampled : Fin L → ℕ)
    (scores : Fin L → ℚ) (s : GenState L) :
    (genStep mask_id k sampled scores s).mask =
      fun i => decide (i ∈ topkSel L (fun j => if s.mask j then scores j else -floatMax) k) :=
  rfl

theorem genStep_seq_eq (mask_id : ℕ) {L : ℕ} (k : ℕ) (sampled : Fin L → ℕ)
    (scores : Fin L → ℚ) (s : GenState L) :
    (genStep mask_id k sampled scores s).seq =
      fun i =>
        if decide (i ∈ topkSel L (fun j => if s.mask j then scores j else -floatMax) k) = true
        then mask_id else if s.mask i then sampled i else s.seq i :=
  rfl

/-- After one round the masked positions are exactly the `min numMask L`
positions selected by the topk re-masking. -/
theorem maskedCount_genStep (mask_id : ℕ) {L : ℕ} (k : ℕ) (sampled : Fin L → ℕ)
    (scores : Fin L → ℚ) (s : GenState L) :
    maskedCount (genStep mask_id k sampled scores s) = min k L := by
  classical
  have hset : (Finset.univ.filter fun i => (genStep mask_id k sampled scores s).mask i = true)
      = (topkSel L (fun j => if s.mask j then scores j else -floatMax) k).toFinset := by
    ext i
    simp [genStep_mask_eq, List.mem_toFinset]
  rw [maskedCount, hset, topkSel_toFinset_card]

theorem maskedCount_le {L : ℕ} (s : GenState L) : maskedCount s ≤ L := by
  classical
  calc maskedCount s ≤ Finset.univ.card := Finset.card_filter_le _ _
    _ = L := by simp

/-- Core of the committed-position invariant: a position that is already
committed (unmasked) when a round starts is not re-selected for masking,
because its score is forced to `-floatMax` (line 114) while every masked
position carries a nonnegative score, and at most `maskedCount` positions are
re-masked; its token value is also untouched by `torch.where` (line 106). -/
theorem genStep_preserves_committed (mask_id : ℕ) {L : ℕ} {k : ℕ} (sampled : Fin L → ℕ)
    {scores : Fin L → ℚ} {s : GenState L} (hk : k ≤ maskedCount s)
    (hsc : ∀ p, 0 ≤ scores p) {p : Fin L} (hp : s.mask p = false) :
    (genStep mask_id k sampled scores s).seq p = s.seq p ∧
      (genStep mask_id k sampled scores s).mask p = false := by
  classical
  have hpnot : p ∉ topkSel L (fun j => if s.mask j then scores j else -floatMax) k := by
    intro hmem
    have hkL : k ≤ L := hk.trans (maskedCount_le s)
    have hlen : (topkSel L (fun j => if s.mask j then scores j else -floatMax) k).toFinset.card
        = k := by
      rw [topkSel_toFinset_card]; exact Nat.min_eq_left hkL
    have hpF : p ∉ Finset.univ.filter fun i => s.mask i = true := by simp [hp]
    have hpI : p ∈ (topkSel L (fun j => if s.mask j then scores j else -floatMax) k).toFinset :=
      List.mem_toFinset.mpr hmem
    obtain ⟨q, hqF, hqI⟩ :
        ∃ q, q ∈ (Finset.univ.filter fun i => s.mask i = true) ∧
          q ∉ (topkSel L (fun j => if s.mask j then scores j else -floatMax) k).toFinset := by
      by_contra hno
      push_neg at hno
      have hss : (Finset.univ.filter fun i => s.mask i = true) ⊂
          (topkSel L (fun j => if s.mask j then scores j else -floatMax) k).toFinset :=
        ⟨fun q hq => hno q hq, fun hIF => hpF (hIF hpI)⟩
      have := Finset.card_lt_card hss
      rw [hlen] at this
      exact absurd hk (by rw [maskedCount]; omega)
    have hqmem : q ∉ topkSel L (fun j => if s.mask j then scores j else -floatMax) k :=
      fun h => hqI (List.mem_toFinset.mpr h)
    have hsep := topkSel_sep L (fun j => if s.mask j then scores j else -floatMax) k hmem hqmem
    have hqmask : s.mask q = true := by simpa using hqF
    simp only [hqmask, hp] at hsep
    simp at hsep
    have : (0 : ℚ) < 0 := lt_of_le_of_lt ((hsc q).trans hsep) (by
      have := floatMax_pos; linarith)
    exact absurd this (lt_irrefl 0)
  refine ⟨?_, ?_⟩
  · rw [genStep_seq_eq]
    simp [hpnot, hp]
  · rw [genStep_mask_eq]
    simp [hpnot]

/-- The schedule-function contract of the data model: domain `[0,1]`, range
`[0,1]`, monotonically non-increasing, `f(0) = 1`, `f(1) = 0`. -/
def ScheduleContract (f : ℚ → ℚ) : Prop :=
  (∀ t, 0 ≤ t → t ≤ 1 → 0 ≤ f t ∧ f t ≤ 1) ∧
    (∀ a b, 0 ≤ a → a ≤ b → b ≤ 1 → f b ≤ f a) ∧ f 0 = 1 ∧ f 1 = 0

theorem linear_schedule_contract : ScheduleContract linear_schedule := by
  refine ⟨fun t h0 h1 => ⟨?_, ?_⟩, fun a b h0 hab hb1 => ?_, ?_, ?_⟩ <;>
    simp [linear_schedule] <;> linarith

theorem timeGrid_nonneg (S i : ℕ) : 0 ≤ timeGrid S i :=
  div_nonneg (Nat.cast_nonneg i) (Nat.cast_nonneg S)

theorem timeGrid_le_one {S i : ℕ} (hS : 0 < S) (h : i ≤ S) : timeGrid S i ≤ 1 := by
  rw [timeGrid, div_le_one (by exact_mod_cast hS)]
  exact_mod_cast h

theorem timeGrid_mono {S : ℕ} {i j : ℕ} (h : i ≤ j) : timeGrid S i ≤ timeGrid S j := by
  rw [timeGrid, timeGrid]
  exact div_le_div_of_nonneg_right (by exact_mod_cast h) (Nat.cast_nonneg S)

/-- The target masked count consumed by round `i` (0-indexed), as a natural
number: `all_mask_num_tokens[i]` after the implicit nonnegative cast used
as the `k` argument of `topk`. -/
def roundTarget (f : ℚ → ℚ) (S L i : ℕ) : ℕ :=
  ((allMaskNumTokens f S L).getD i 0).toNat

theorem roundTarget_le_L {f : ℚ → ℚ} {S L : ℕ} (hc : ScheduleContract f) (hS : 0 < S)
    {i : ℕ} (hi : i < S) : roundTarget f S L i ≤ L := by
  rw [roundTarget, allMaskNumTokens_getD f S L hi]
  have ht0 := timeGrid_nonneg S (i + 1)
  have ht1 := timeGrid_le_one hS (by omega : i + 1 ≤ S)
  have hf := hc.1 _ ht0 ht1
  have := ratTrunc_frac_le (p := f (timeGrid S (i + 1))) L hf.2
  omega

theorem roundTarget_antitone {f : ℚ → ℚ} {S L : ℕ} (hc : ScheduleContract f) (hS : 0 < S)
    {i : ℕ} (hi : i + 1 < S) : roundTarget f S L (i + 1) ≤ roundTarget f S L i := by
  rw [roundTarget, roundTarget, allMaskNumTokens_getD f S L hi,
    allMaskNumTokens_getD f S L (by omega : i < S)]
  have ht0 := timeGrid_nonneg S (i + 1)
  have ht1 : timeGrid S (i + 1) ≤ timeGrid S (i + 1 + 1) := timeGrid_mono (by omega)
  have ht2 := timeGrid_le_one hS (by omega : i + 1 + 1 ≤ S)
  have hmono := hc.2.1 _ _ ht0 ht1 ht2
  have hf2 := hc.1 _ (timeGrid_nonneg S (i + 1 + 1)) ht2
  have hmul : f (timeGrid S (i + 1 + 1)) * (L : ℚ) ≤ f (timeGrid S (i + 1)) * (L : ℚ) :=
    mul_le_mul_of_nonneg_right hmono (Nat.cast_nonneg L)
  have htr := ratTrunc_mono (mul_nonneg hf2.1 (Nat.cast_nonneg L)) hmul
  omega

/-- The final round's target is zero: `times[S] = 1` and `f 1 = 0`. -/
theorem roundTarget_last {f : ℚ → ℚ} {S L : ℕ} (hc : ScheduleContract f) (hS : 0 < S) :
    roundTarget f S L (S - 1) = 0 := by
  rw [roundTarget, allMaskNumTokens_getD f S L (by omega : S - 1 < S)]
  have h1 : timeGrid S (S - 1 + 1) = 1 := by
    rw [timeGrid]
    have : S - 1 + 1 = S := by omega
    rw [this, div_self (by exact_mod_cast hS.ne' : (S : ℚ) ≠ 0)]
  rw [h1, hc.2.2.2, zero_mul, ratTrunc_of_nonneg le_rfl, Int.floor_zero]
  rfl

theorem maskedCount_genRounds_zero (mask_id : ℕ) {L : ℕ} (f : ℚ → ℚ) (S : ℕ)
    (sampledO : ℕ → (Fin L → ℕ) → Fin L → ℕ) (scoresO : ℕ → (Fin L → ℕ) → Fin L → ℚ) :
    maskedCount (genRounds mask_id f S sampledO scoresO 0) = L := by
  simp [genRounds, initGenState, maskedCount]

theorem maskedCount_genRounds_succ (mask_id : ℕ) {L : ℕ} (f : ℚ → ℚ) (S : ℕ)
    (sampledO : ℕ → (Fin L → ℕ) → Fin L → ℕ) (scoresO : ℕ → (Fin L → ℕ) → Fin L → ℚ)
    (i : ℕ) :
    maskedCount (genRounds mask_id f S sampledO scoresO (i + 1)) =
      min (roundTarget f S L i) L := by
  rw [genRounds, roundTarget]
  exact maskedCount_genStep _ _ _ _ _

theorem genRounds_succ (mask_id : ℕ) {L : ℕ} (f : ℚ → ℚ) (S : ℕ)
    (sampledO : ℕ → (Fin L → ℕ) → Fin L → ℕ) (scoresO : ℕ → (Fin L → ℕ) → Fin L → ℚ)
    (i : ℕ) :
    genRounds mask_id f S sampledO scoresO (i + 1) =
      genStep mask_id (roundTarget f S L i)
        (sampledO i (genRounds mask_id f S sampledO scoresO i).seq)
        (scoresO i (genRounds mask_id f S sampledO scoresO i).seq)
        (genRounds mask_id f S sampledO scoresO i) :=
  rfl

/-- The number of positions a round re-masks never exceeds the number of
positions that are masked when the round starts. -/
theorem roundTarget_le_maskedCount (mask_id : ℕ) {L : ℕ} {f : ℚ → ℚ} {S : ℕ}
    (sampledO : ℕ → (Fin L → ℕ) → Fin L → ℕ) (scoresO : ℕ → (Fin L → ℕ) → Fin L → ℚ)
    (hc : ScheduleContract f) (hS : 0 < S) {m : ℕ} (hm : m < S) :
    roundTarget f S L m ≤ maskedCount (genRounds mask_id f S sampledO scoresO m) := by
  cases m with
  | zero =>
      rw [maskedCount_genRounds_zero]
      exact roundTarget_le_L hc hS hm
  | succ n =>
      rw [maskedCount_genRounds_succ]
      have h1 := roundTarget_antitone (L := L) hc hS (i := n) hm
      have h2 := roundTarget_le_L (L := L) hc hS hm
      omega

/-- After the final round no position is masked. -/
theorem maskedCount_genRounds_final (mask_id : ℕ) {L : ℕ} {f : ℚ → ℚ} {S : ℕ}
    (sampledO : ℕ → (Fin L → ℕ) → Fin L → ℕ) (scoresO : ℕ → (Fin L → ℕ) → Fin L → ℚ)
    (hc : ScheduleContract f) (hS : 1 ≤ S) :
    maskedCount (genRounds mask_id f S sampledO scoresO S) = 0 := by
  obtain ⟨T, rfl⟩ : ∃ T, S = T + 1 := ⟨S - 1, by omega⟩
  have hz := roundTarget_last (L := L) hc (by omega : 0 < T + 1)
  simp only [Nat.add_sub_cancel] at hz
  rw [maskedCount_genRounds_succ, hz]
  simp

/-- C1: for every generation call with `S ≥ 1` rounds and a schedule function
satisfying the contract, the number of masked positions per example is
non-increasing from round to round, and is exactly zero after the final
round. -/
theorem c1_masked_count_monotone_and_final_zero (mask_id : ℕ) {L : ℕ} (f : ℚ → ℚ) (S : ℕ)
    (sampledO : ℕ → (Fin L → ℕ) → Fin L → ℕ) (scoresO : ℕ → (Fin L → ℕ) → Fin L → ℚ)
    (hc : ScheduleContract f) (hS : 1 ≤ S) :
    (∀ i < S, maskedCount (genRounds mask_id f S sampledO scoresO (i + 1)) ≤
        maskedCount (genRounds mask_id f S sampledO scoresO i)) ∧
      maskedCount (genRounds mask_id f S sampledO scoresO S) = 0 := by
  constructor
  · intro i hi
    rw [maskedCount_genRounds_succ]
    cases i with
    | zero =>
        rw [maskedCount_genRounds_zero]
        omega
    | succ j =>
        rw [maskedCount_genRounds_succ]
        have := roundTarget_antitone (L := L) hc (by omega : 0 < S) (i := j) hi
        omega
  · exact maskedCount_genRounds_final mask_id sampledO scoresO hc hS

/-- Witness for C1 at a concrete instance: `L = 4`, `S = 2`, linear schedule,
constant oracles. -/
theorem c1_masked_count_monotone_and_final_zero_witness :
    (∀ i < 2, maskedCount (genRounds 10 (L := 4) linear_schedule 2
        (fun _ _ _ => 3) (fun _ _ _ => 0) (i + 1)) ≤
      maskedCount (genRounds 10 (L := 4) linear_schedule 2
        (fun _ _ _ => 3) (fun _ _ _ => 0) i)) ∧
    maskedCount (genRounds 10 (L := 4) linear_schedule 2
      (fun _ _ _ => 3) (fun _ _ _ => 0) 2) = 0 :=
  c1_masked_count_monotone_and_final_zero 10 linear_schedule 2 _ _
    linear_schedule_contract (by omega)

/-- C3 fails on the code: the per-round target is obtained with `.long()`,
which truncates toward zero, not with round-to-nearest.  With the linear
schedule, `S = 4` rounds, `L = 3`: after round `i = 2` the code's target is
`int(f(3/4) * 3) = int(0.75) = 0`, while `round(f(3/4) * 3) = round(0.75) = 1`. -/
theorem c3_counterexample :
    (allMaskNumTokens linear_schedule 4 3).getD 2 0 = 0 ∧
      round (linear_schedule (timeGrid 4 3) * (3 : ℚ)) = 1 ∧
      (allMaskNumTokens linear_schedule 4 3).getD 2 0 ≠
        round (linear_schedule (timeGrid 4 3) * (3 : ℚ)) := by
  have h1 : linear_schedule (timeGrid 4 3) * (3 : ℚ) = 3 / 4 := by
    rw [linear_schedule, timeGrid]
    norm_num
  have h2 : (allMaskNumTokens linear_schedule 4 3).getD 2 0 = 0 := by
    rw [allMaskNumTokens_getD linear_schedule 4 3 (by omega : 2 < 4)]
    norm_num at h1 ⊢
    rw [h1, ratTrunc_of_nonneg (by norm_num)]
    rw [Int.floor_eq_iff] <;> norm_num
  have h3 : round (linear_schedule (timeGrid 4 3) * (3 : ℚ)) = 1 := by
    rw [h1, round_eq, Int.floor_eq_iff] <;> norm_num
  exact ⟨h2, h3, by rw [h2, h3]; omega⟩

/-- C3 amended: the target remaining masked count used for re-masking after
round `i` equals the truncation toward zero (for the contract's nonnegative
values, the floor) of `schedule_fn(times[i+1]) * L`, and the number of masked
positions after round `i` is exactly that target. -/
theorem c3_amended_truncated_target (mask_id : ℕ) {L : ℕ} (f : ℚ → ℚ) (S : ℕ)
    (sampledO : ℕ → (Fin L → ℕ) → Fin L → ℕ) (scoresO : ℕ → (Fin L → ℕ) → Fin L → ℚ)
    (hc : ScheduleContract f) (hS : 0 < S) {i : ℕ} (hi : i < S) :
    roundTarget f S L i = (ratTrunc (f (timeGrid S (i + 1)) * (L : ℚ))).toNat ∧
      maskedCount (genRounds mask_id f S sampledO scoresO (i + 1)) =
        (ratTrunc (f (timeGrid S (i + 1)) * (L : ℚ))).toNat := by
  have he : roundTarget f S L i = (ratTrunc (f (timeGrid S (i + 1)) * (L : ℚ))).toNat := by
    rw [roundTarget, allMaskNumTokens_getD f S L hi]
  refine ⟨he, ?_⟩
  rw [maskedCount_genRounds_succ]
  have h1 := roundTarget_le_L (L := L) hc hS hi
  rw [he] at h1
  rw [he]
  omega

/-- Witness for the amended C3 at `L = 4`, `S = 2`, `i = 0`, linear schedule. -/
theorem c3_amended_truncated_target_witness :
    roundTarget linear_schedule 2 4 0 =
        (ratTrunc (linear_schedule (timeGrid 2 1) * (4 : ℚ))).toNat ∧
      maskedCount (genRounds 10 (L := 4) linear_schedule 2
          (fun _ _ _ => 3) (fun _ _ _ => 0) 1) =
        (ratTrunc (linear_schedule (timeGrid 2 1) * (4 : ℚ))).toNat :=
  c3_amended_truncated_target 10 linear_schedule 2 _ _
    linear_schedule_contract (by omega) (by omega)

/-- C2: once a position is committed (left unmasked at the end of round `i`),
every later round `j ≤ S` leaves both its token value and its committed
status unchanged: rounds overwrite only currently-masked positions, and a
committed position is never re-selected for masking since its re-masking
score is forced to `-floatMax`, strictly below the nonnegative
confidence-inverse scores of the masked positions. -/
theorem c2_committed_never_altered (mask_id : ℕ) {L : ℕ} (f : ℚ → ℚ) (S : ℕ)
    (sampledO : ℕ → (Fin L → ℕ) → Fin L → ℕ) (scoresO : ℕ → (Fin L → ℕ) → Fin L → ℚ)
    (hc : ScheduleContract f) (hsc : ∀ i q p, 0 ≤ scoresO i q p)
    {i j : ℕ} (hij : i ≤ j) (hjS : j ≤ S) {p : Fin L}
    (hp : (genRounds mask_id f S sampledO scoresO i).mask p = false) :
    (genRounds mask_id f S sampledO scoresO j).seq p =
        (genRounds mask_id f S sampledO scoresO i).seq p ∧
      (genRounds mask_id f S sampledO scoresO j).mask p = false := by
  induction j with
  | zero =>
      obtain rfl : i = 0 := by omega
      exact ⟨rfl, hp⟩
  | succ m ih =>
      rcases Nat.lt_or_ge i (m + 1) with hlt | hge
      · obtain ⟨hseq, hmask⟩ := ih (by omega) (by omega)
        have hkle := roundTarget_le_maskedCount mask_id sampledO scoresO hc
          (by omega : 0 < S) (m := m) (by omega)
        have hstep := genStep_preserves_committed mask_id
          (sampledO m (genRounds mask_id f S sampledO scoresO m).seq)
          hkle (fun q => hsc m (genRounds mask_id f S sampledO scoresO m).seq q) hmask
        rw [genRounds_succ]
        exact ⟨hstep.1.trans hseq, hstep.2⟩
      · obtain rfl : i = m + 1 := by omega
        exact ⟨rfl, hp⟩

/-- Witness for C2: with `L = 4`, `S = 2`, linear schedule, position `2` is
committed after round 1 and rounds up to `S = 2` keep it unchanged. -/
theorem c2_committed_never_altered_witness :
    (genRounds 10 (L := 4) linear_schedule 2 (fun _ _ _ => 3) (fun _ _ _ => 0) 2).seq
        ⟨2, by omega⟩ =
      (genRounds 10 (L := 4) linear_schedule 2 (fun _ _ _ => 3) (fun _ _ _ => 0) 1).seq
        ⟨2, by omega⟩ ∧
    (genRounds 10 (L := 4) linear_schedule 2 (fun _ _ _ => 3) (fun _ _ _ => 0) 2).mask
        ⟨2, by omega⟩ = false :=
  c2_committed_never_altered 10 linear_schedule 2 _ _ linear_schedule_contract
    (fun _ _ _ => le_refl 0) (by omega : 1 ≤ 2) (by omega : 2 ≤ 2) (by
      have hrt : roundTarget linear_schedule 2 4 0 = 2 := by
        rw [roundTarget, allMaskNumTokens_getD linear_schedule 2 4 (by omega : 0 < 2)]
        have harg : linear_schedule (timeGrid 2 (0 + 1)) * ((4 : ℕ) : ℚ) = ((2 : ℕ) : ℚ) := by
          rw [linear_schedule, timeGrid]; norm_num
        rw [harg, ratTrunc_of_nonneg (by positivity), Int.floor_natCast]
        rfl
      rw [genRounds_succ, hrt]
      decide)

/-- Committed positions always hold a token drawn by the sampler; when every
draw is over the `V`-class vocabulary, committed values are `< V`. -/
theorem genRounds_committed_lt (mask_id V : ℕ) {L : ℕ} (f : ℚ → ℚ) (S : ℕ)
    (sampledO : ℕ → (Fin L → ℕ) → Fin L → ℕ) (scoresO : ℕ → (Fin L → ℕ) → Fin L → ℚ)
    (hs : ∀ i q p, sampledO i q p < V) :
    ∀ (i : ℕ) (p : Fin L), (genRounds mask_id f S sampledO scoresO i).mask p = false →
      (genRounds mask_id f S sampledO scoresO i).seq p < V := by
  intro i
  induction i with
  | zero =>
      intro p hp
      simp [genRounds, initGenState] at hp
  | succ m ih =>
      intro p hp
      rw [genRounds_succ] at hp ⊢
      rw [genStep_mask_eq] at hp
      simp only [decide_eq_false_iff_not] at hp
      rw [genStep_seq_eq]
      simp only []
      rw [if_neg (by simpa using hp)]
      by_cases hm : (genRounds mask_id f S sampledO scoresO m).mask p
      · rw [if_pos hm]
        exact hs m _ p
      · rw [if_neg hm]
        exact ih p (by simpa using hm)

/-- After the final round every position of every example is committed. -/
theorem genRounds_final_all_unmasked (mask_id : ℕ) {L : ℕ} {f : ℚ → ℚ} {S : ℕ}
    (sampledO : ℕ → (Fin L → ℕ) → Fin L → ℕ) (scoresO : ℕ → (Fin L → ℕ) → Fin L → ℚ)
    (hc : ScheduleContract f) (hS : 1 ≤ S) (p : Fin L) :
    (genRounds mask_id f S sampledO scoresO S).mask p = false := by
  by_contra h
  have hmem : p ∈ Finset.univ.filter
      fun q => (genRounds mask_id f S sampledO scoresO S).mask q = true := by
    simp only [Bool.not_eq_false] at h
    simp [h]
  have hz := maskedCount_genRounds_final mask_id sampledO scoresO hc hS
  rw [maskedCount, Finset.card_eq_zero] at hz
  rw [hz] at hmem
  exact absurd hmem (Finset.not_mem_empty p)

/-- C8: with `S ≥ 1` rounds and a contract-satisfying schedule, the returned
sequence (batch size omitted, so the singleton batch dimension is stripped)
holds only multinomially drawn vocabulary ids: every entry is `< V` and no
entry equals `mask_id` (the sentinel lies outside the vocabulary). -/
theorem c8_output_pure_vocab (mask_id V : ℕ) {L : ℕ} (f : ℚ → ℚ) (S : ℕ)
    (sampledO : ℕ → ℕ → (Fin L → ℕ) → Fin L → ℕ)
    (scoresO : ℕ → ℕ → (Fin L → ℕ) → Fin L → ℚ)
    (hc : ScheduleContract f) (hS : 1 ≤ S)
    (hs : ∀ b i q p, sampledO b i q p < V) (hV : V ≤ mask_id) :
    generate mask_id f S none sampledO scoresO =
        Sum.inl (generateRow mask_id f S (sampledO 0) (scoresO 0)) ∧
      ∀ p, generateRow mask_id f S (sampledO 0) (scoresO 0) p < V ∧
        generateRow mask_id f S (sampledO 0) (scoresO 0) p ≠ mask_id := by
  refine ⟨rfl, fun p => ?_⟩
  have hall := genRounds_final_all_unmasked mask_id (sampledO 0) (scoresO 0) hc hS p
  have hlt := genRounds_committed_lt mask_id V f S (sampledO 0) (scoresO 0)
    (fun i q r => hs 0 i q r) S p hall
  have hgr : generateRow mask_id f S (sampledO 0) (scoresO 0) p =
      (genRounds mask_id f S (sampledO 0) (scoresO 0) S).seq p := rfl
  rw [hgr]
  exact ⟨hlt, by omega⟩

/-- Witness for C8 at the spec's end-to-end scenario: `V = 10`,
`mask_id = 10`, `L = 4`, `S = 2`, linear schedule, batch size omitted. -/
theorem c8_output_pure_vocab_witness :
    generate 10 (L := 4) linear_schedule 2 none
        (fun _ _ _ _ => 3) (fun _ _ _ _ => 0) =
      Sum.inl (generateRow 10 linear_schedule 2
        ((fun _ _ _ _ => 3) 0) ((fun _ _ _ _ => 0) 0)) ∧
    ∀ p, generateRow 10 (L := 4) linear_schedule 2
          ((fun _ _ _ _ => 3) 0) ((fun _ _ _ _ => 0) 0) p < 10 ∧
        generateRow 10 (L := 4) linear_schedule 2
          ((fun _ _ _ _ => 3) 0) ((fun _ _ _ _ => 0) 0) p ≠ 10 :=
  c8_output_pure_vocab 10 10 linear_schedule 2 _ _ linear_schedule_contract
    (by omega) (fun _ _ _ _ => by omega) (le_refl 10)

/-- C9: constructed with `steps = 0`, `times[1:]` is empty, so the loop body
never runs: the model is never queried, and the returned buffer (shape
`[batch_size, L]`, or `[L]` with the batch dimension stripped when
`batch_size` is omitted) is identically `mask_id`. -/
theorem c9_zero_steps_all_masked (mask_id : ℕ) {L : ℕ} (f : ℚ → ℚ)
    (sampledO : ℕ → ℕ → (Fin L → ℕ) → Fin L → ℕ)
    (scoresO : ℕ → ℕ → (Fin L → ℕ) → Fin L → ℚ) :
    (∀ b, netQueries mask_id f 0 (sampledO b) (scoresO b) = []) ∧
      generate mask_id f 0 none sampledO scoresO = Sum.inl (fun _ => mask_id) ∧
      ∀ B, generate mask_id f 0 (some B) sampledO scoresO =
        Sum.inr (List.replicate B fun _ => mask_id) := by
  refine ⟨fun b => rfl, rfl, fun B => ?_⟩
  rw [generate]
  congr 1
  have hconst : ∀ b ∈ List.range B,
      generateRow mask_id f 0 (sampledO b) (scoresO b) = fun _ => mask_id :=
    fun b _ => rfl
  rw [List.map_congr_left hconst]
  simp

/-- C7: with a filter threshold, a position's sampled token always lies in
the top-`k` logit set, `k = ceil((1 - thres) * V)`: the filtered slice keeps
exactly the `k` selected entries (whose logits dominate all discarded ones)
and maps every other token to `-inf`, which the softmax sends to probability
zero, so `torch.multinomial` can never draw it.  A drawable token is exactly
one whose filtered entry is `some`. -/
theorem c7_sampled_in_top_k (V : ℕ) (logits : Fin V → ℚ) (thres : ℚ) (h0 : 0 ≤ thres) :
    (topkSel V logits (⌈(1 - thres) * (V : ℚ)⌉).toNat).length =
        (⌈(1 - thres) * (V : ℚ)⌉).toNat ∧
      ∀ j : Fin V,
        ((top_k V logits thres j).isSome = true →
          j ∈ topkSel V logits (⌈(1 - thres) * (V : ℚ)⌉).toNat ∧
            ∀ i : Fin V, i ∉ topkSel V logits (⌈(1 - thres) * (V : ℚ)⌉).toNat →
              logits i ≤ logits j) ∧
          (j ∉ topkSel V logits (⌈(1 - thres) * (V : ℚ)⌉).toNat →
            top_k V logits thres j = none) := by
  have hkV : (⌈(1 - thres) * (V : ℚ)⌉).toNat ≤ V := by
    have h1 : (1 - thres) * (V : ℚ) ≤ (V : ℚ) := by
      calc (1 - thres) * (V : ℚ) ≤ 1 * V :=
            mul_le_mul_of_nonneg_right (by linarith) (Nat.cast_nonneg V)
        _ = V := one_mul _
    have h2 : (⌈(1 - thres) * (V : ℚ)⌉ : ℤ) ≤ ⌈(V : ℚ)⌉ := Int.ceil_le_ceil h1
    rw [Int.ceil_natCast] at h2
    omega
  refine ⟨?_, fun j => ⟨fun hj => ⟨?_, fun i hi => ?_⟩, fun hj => ?_⟩⟩
  · rw [topkSel_length]
    omega
  · by_contra hmem
    rw [top_k] at hj
    simp [hmem] at hj
  · have hjmem : j ∈ topkSel V logits (⌈(1 - thres) * (V : ℚ)⌉).toNat := by
      by_contra hmem
      rw [top_k] at hj
      simp [hmem] at hj
    exact topkSel_sep V logits _ hjmem hi
  · rw [top_k]
    simp [hj]

/-- Witness for C7: `V = 4`, logits `[1, 5, 3, 2]`, threshold `1/2`. -/
theorem c7_sampled_in_top_k_witness :
    (topkSel 4 (fun i => [1, 5, 3, 2].getD i 0)
          (⌈(1 - (1 : ℚ)/2) * ((4 : ℕ) : ℚ)⌉).toNat).length =
        (⌈(1 - (1 : ℚ)/2) * ((4 : ℕ) : ℚ)⌉).toNat ∧
      ∀ j : Fin 4,
        ((top_k 4 (fun i => [1, 5, 3, 2].getD i 0) ((1 : ℚ)/2) j).isSome = true →
          j ∈ topkSel 4 (fun i => [1, 5, 3, 2].getD i 0)
              (⌈(1 - (1 : ℚ)/2) * ((4 : ℕ) : ℚ)⌉).toNat ∧
            ∀ i : Fin 4, i ∉ topkSel 4 (fun i => [1, 5, 3, 2].getD i 0)
                (⌈(1 - (1 : ℚ)/2) * ((4 : ℕ) : ℚ)⌉).toNat →
              ([1, 5, 3, 2] : List ℚ).getD i 0 ≤ ([1, 5, 3, 2] : List ℚ).getD j 0) ∧
          (j ∉ topkSel 4 (fun i => [1, 5, 3, 2].getD i 0)
              (⌈(1 - (1 : ℚ)/2) * ((4 : ℕ) : ℚ)⌉).toNat →
            top_k 4 (fun i => [1, 5, 3, 2].getD i 0) ((1 : ℚ)/2) j = none) :=
  c7_sampled_in_top_k 4 (fun i => [1, 5, 3, 2].getD i 0) ((1 : ℚ)/2) (by norm_num)

/-- The generation loop with the model query's possible failure made
explicit: round `i` first queries the model (line 90); if that query raises
(`netFail i = true`) the exception propagates (`none`), otherwise the round
proceeds as in `genRounds`. -/
def genRoundsE (mask_id : ℕ) {L : ℕ} (f : ℚ → ℚ) (S : ℕ) (netFail : ℕ → Bool)
    (sampledO : ℕ → (Fin L → ℕ) → Fin L → ℕ)
    (scoresO : ℕ → (Fin L → ℕ) → Fin L → ℚ) : ℕ → Option (GenState L)
  | 0 => some (initGenState mask_id L)
  | i + 1 =>
      match genRoundsE mask_id f S netFail sampledO scoresO i with
      | none => none
      | some s =>
          if netFail i then none
          else
            some (genStep mask_id ((allMaskNumTokens f S L).getD i 0).toNat
              (sampledO i s.seq) (scoresO i s.seq) s)

/-- Embedding of `generate` with the model's train/eval mode flag made explicit.  Line 73
reads `was_training = self.net.training`; line 74 `self.net.eval()` sets the
flag to `false`; the loop runs; only the straight-line statement at line 119,
`self.net.train(was_training)`, restores the flag — there is no
`try`/`finally`, so an exception raised by a mid-loop model query propagates
before line 119 executes and the flag stays `false`.  Returns the flag's
final value paired with the result (`none` when the run raised). -/
def generateE (was_training : Bool) (mask_id : ℕ) {L : ℕ} (f : ℚ → ℚ) (S : ℕ)
    (netFail : ℕ → Bool)
    (sampledO : ℕ → (Fin L → ℕ) → Fin L → ℕ)
    (scoresO : ℕ → (Fin L → ℕ) → Fin L → ℚ) : Bool × Option (Fin L → ℕ) :=
  match genRoundsE mask_id f S netFail sampledO scoresO S with
  | none => (false, none)
  | some s => (was_training, some s.seq)

/-- C5 fails on the code: there is no guaranteed-cleanup construct around the
loop.  Concretely, a model that was in training mode (`was_training = true`)
and whose query raises in round 0 of a 1-round generation is left in
evaluation mode (flag `false`), not restored. -/
theorem c5_counterexample :
    (generateE true 10 (L := 1) linear_schedule 1 (fun _ => true)
        (fun _ _ _ => 0) (fun _ _ _ => 0)).1 = false ∧
      (generateE true 10 (L := 1) linear_schedule 1 (fun _ => true)
        (fun _ _ _ => 0) (fun _ _ _ => 0)).2 = none ∧
      (generateE true 10 (L := 1) linear_schedule 1 (fun _ => true)
        (fun _ _ _ => 0) (fun _ _ _ => 0)).1 ≠ true := by
  exact ⟨rfl, rfl, Bool.false_ne_true⟩

/-- C5 amended: the original mode flag is restored whenever the generation
loop completes; when a mid-loop model query raises, the exception propagates
before the restore and the flag is left at `false` (evaluation mode). -/
theorem c5_amended_mode_restored_on_completion (was_training : Bool) (mask_id : ℕ)
    {L : ℕ} (f : ℚ → ℚ) (S : ℕ) (netFail : ℕ → Bool)
    (sampledO : ℕ → (Fin L → ℕ) → Fin L → ℕ)
    (scoresO : ℕ → (Fin L → ℕ) → Fin L → ℚ) :
    ((generateE was_training mask_id f S netFail sampledO scoresO).2.isSome = true →
        (generateE was_training mask_id f S netFail sampledO scoresO).1 = was_training) ∧
      ((generateE was_training mask_id f S netFail sampledO scoresO).2 = none →
        (generateE was_training mask_id f S netFail sampledO scoresO).1 = false) := by
  cases h : genRoundsE mask_id f S netFail sampledO scoresO S with
  | none => simp [generateE, h]
  | some s => simp [generateE, h]

/-- Witness for the amended C5: a completed 1-round run restores the flag. -/
theorem c5_amended_mode_restored_on_completion_witness :
    (generateE true 10 (L := 1) linear_schedule 1 (fun _ => false)
        (fun _ _ _ => 0) (fun _ _ _ => 0)).1 = true :=
  (c5_amended_mode_restored_on_completion true 10 linear_schedule 1 (fun _ => false)
      (fun _ _ _ => 0) (fun _ _ _ => 0)).1 rfl

/-- Line 136 per example: `num_tokens_mask = (rand_probs * n).clamp(min = 1.)`
— a float clamp of the schedule-derived masked fraction times the length. -/
def numTokensMask (p : ℚ) (n : ℕ) : ℚ := max (p * n) 1

/-- Lines 138-139 per example: `batched_randperm = torch.rand((b, n)).argsort(-1).float()`
ranks iid uniform keys, producing a uniformly random permutation `perm` of
the positions (abstracted as an arbitrary permutation); position `j` is
masked iff its float rank is strictly below the clamped target count:
`mask = batched_randperm < num_tokens_mask`. -/
def trainMask {n : ℕ} (perm : Fin n → Fin n) (c : ℚ) : Fin n → Bool :=
  fun j => decide ((((perm j : ℕ) : ℚ)) < c)

/-- Line 141: `masked = torch.where(mask, self.mask_id, x)` — a fresh buffer,
`x` is only read. -/
def maskedInput (mask_id : ℕ) {n : ℕ} (mask : Fin n → Bool) (x : Fin n → ℕ) :
    Fin n → ℕ :=
  fun j => if mask j then mask_id else x j

/-- Boolean-mask indexing `t[mask]` on one example: the values at masked
positions, in position order (lines 146-147). -/
def maskSelect {n : ℕ} {α : Type} (mask : Fin n → Bool) (v : Fin n → α) : List α :=
  ((List.finRange n).filter fun j => mask j).map v

/-- Number of masked positions of one training example. -/
def maskedCountB {n : ℕ} (mask : Fin n → Bool) : ℕ :=
  (Finset.univ.filter fun j => mask j = true).card

/-- Embedding of `forward` (lines 126-150) for one example of the batch.  `r` is the
example's uniform time draw (line 134), `perm` its argsort-derived random
permutation (line 138), `net` the opaque model and `ce` the external
cross-entropy reduction (a real-valued log-sum-exp computation) applied to
the gathered rows `logits[mask]` and targets `x[mask]` (lines 145-148).
The second component is the caller's input buffer after the call: no
operation of the body writes to `x` (line 141 allocates a fresh buffer). -/
def forward (mask_id : ℕ) {n V : ℕ} (f : ℚ → ℚ) (r : ℚ) (perm : Fin n → Fin n)
    (net : (Fin n → ℕ) → Fin n → Fin V → ℚ)
    (ce : List (Fin V → ℚ) → List ℕ → ℚ) (x : Fin n → ℕ) : ℚ × (Fin n → ℕ) :=
  let c := numTokensMask (f r) n
  let mask := trainMask perm c
  let masked := maskedInput mask_id mask x
  let logits := net masked
  (ce (maskSelect mask logits) (maskSelect mask x), x)

theorem card_fin_val_lt (n K : ℕ) :
    (Finset.univ.filter fun j : Fin n => (j : ℕ) < K).card = min K n := by
  classical
  have hmap : (Finset.univ.filter fun j : Fin n => (j : ℕ) < K).map Fin.valEmbedding
      = (Finset.range n).filter fun v => v < K := by
    ext v
    simp only [Finset.mem_map, Finset.mem_filter, Finset.mem_univ, true_and,
      Finset.mem_range, Fin.valEmbedding_apply]
    constructor
    · rintro ⟨j, hj, rfl⟩
      exact ⟨j.isLt, hj⟩
    · rintro ⟨hv, hK⟩
      exact ⟨⟨v, hv⟩, hK, rfl⟩
  have hcard := congrArg Finset.card hmap
  rw [Finset.card_map] at hcard
  rw [hcard]
  have hrange : (Finset.range n).filter (fun v => v < K) = Finset.range (min K n) := by
    ext v
    simp only [Finset.mem_filter, Finset.mem_range]
    omega
  rw [hrange, Finset.card_range]

theorem card_fin_cast_lt (n : ℕ) (c : ℚ) :
    (Finset.univ.filter fun j : Fin n => ((j : ℕ) : ℚ) < c).card = min (⌈c⌉).toNat n := by
  classical
  have hiff : ∀ j : Fin n, (((j : ℕ) : ℚ) < c) ↔ ((j : ℕ) < (⌈c⌉).toNat) := by
    intro j
    constructor
    · intro h
      have h2 : ((j : ℕ) : ℤ) < ⌈c⌉ := Int.lt_ceil.mpr (by push_cast; exact h)
      omega
    · intro h
      have h2 : ((j : ℕ) : ℤ) < ⌈c⌉ := by omega
      have h3 := Int.lt_ceil.mp h2
      push_cast at h3
      exact h3
  have : (Finset.univ.filter fun j : Fin n => ((j : ℕ) : ℚ) < c)
      = Finset.univ.filter fun j : Fin n => (j : ℕ) < (⌈c⌉).toNat := by
    apply Finset.filter_congr
    intro j _
    exact hiff j
  rw [this, card_fin_val_lt]

theorem card_filter_comp_bijective {n : ℕ} {perm : Fin n → Fin n}
    (hperm : Function.Bijective perm) (P : Fin n → Prop) [DecidablePred P] :
    (Finset.univ.filter fun j => P (perm j)).card = (Finset.univ.filter P).card := by
  classical
  refine Finset.card_bij (fun j _ => perm j) ?_ ?_ ?_
  · intro a ha
    simp only [Finset.mem_filter, Finset.mem_univ, true_and] at ha ⊢
    exact ha
  · intro a _ b _ h
    exact hperm.injective h
  · intro b hb
    obtain ⟨a, rfl⟩ := hperm.surjective b
    refine ⟨a, ?_, rfl⟩
    simp only [Finset.mem_filter, Finset.mem_univ, true_and] at hb ⊢
    exact hb

theorem maskedCountB_trainMask {n : ℕ} (perm : Fin n → Fin n) (c : ℚ) :
    maskedCountB (trainMask perm c) =
      (Finset.univ.filter fun j : Fin n => (((perm j : ℕ) : ℚ) < c)).card := by
  classical
  rw [maskedCountB]
  apply congrArg
  apply Finset.filter_congr
  intro j _
  simp [trainMask]

/-- The exact masked count selected by the training mask construction:
`#{j : rank(j) < c}` over a permutation of the ranks `0, …, n-1` is
`min(ceil(c), n)`. -/
theorem trainMask_count {n : ℕ} {perm : Fin n → Fin n} (hperm : Function.Bijective perm)
    (c : ℚ) :
    maskedCountB (trainMask perm c) = min (⌈c⌉).toNat n := by
  classical
  rw [maskedCountB_trainMask,
    card_filter_comp_bijective hperm (fun v : Fin n => ((v : ℕ) : ℚ) < c),
    card_fin_cast_lt]

theorem ceil_numTokensMask (p : ℚ) (n : ℕ) :
    ⌈numTokensMask p n⌉ = max ⌈(p * (n : ℚ))⌉ 1 := by
  rw [numTokensMask]
  rcases le_total (p * (n : ℚ)) 1 with h | h
  · rw [max_eq_right h]
    have h2 : (⌈(p * (n : ℚ))⌉ : ℤ) ≤ ⌈(1 : ℚ)⌉ := Int.ceil_le_ceil h
    rw [Int.ceil_one] at h2
    rw [Int.ceil_one]
    omega
  · rw [max_eq_left h]
    have h2 : (⌈(1 : ℚ)⌉ : ℤ) ≤ ⌈(p * (n : ℚ))⌉ := Int.ceil_le_ceil h
    rw [Int.ceil_one] at h2
    omega

/-- C4 fails on the code: the masked count is a ceiling, not a
round-to-nearest.  With `p = schedule(r) = 23/100` and `L = 10`:
`p * L = 2.3`; the code masks every position whose float rank is `< 2.3`,
i.e. ranks `0, 1, 2` — three positions — while `max(1, round(2.3)) = 2`. -/
theorem c4_counterexample :
    maskedCountB (trainMask (fun j : Fin 10 => j)
        (numTokensMask (linear_schedule (77/100)) 10)) = 3 ∧
      max 1 (round (linear_schedule ((77 : ℚ)/100) * ((10 : ℕ) : ℚ))) = 2 ∧
      (maskedCountB (trainMask (fun j : Fin 10 => j)
          (numTokensMask (linear_schedule (77/100)) 10)) : ℤ) ≠
        max 1 (round (linear_schedule ((77 : ℚ)/100) * ((10 : ℕ) : ℚ))) := by
  have hc : numTokensMask (linear_schedule (77/100)) 10 = 23/10 := by
    rw [linear_schedule, numTokensMask]
    rw [max_eq_left (by norm_num : (1 : ℚ) ≤ (1 - 77/100) * ((10 : ℕ) : ℚ))]
    norm_num
  have hceil : (⌈(23/10 : ℚ)⌉ : ℤ) = 3 := by
    rw [Int.ceil_eq_iff]
    norm_num
  have hcount : maskedCountB (trainMask (fun j : Fin 10 => j)
      (numTokensMask (linear_schedule (77/100)) 10)) = 3 := by
    rw [trainMask_count
      (by exact Function.bijective_id : Function.Bijective (fun j : Fin 10 => j)), hc, hceil]
    rfl
  have hround : max 1 (round (linear_schedule ((77 : ℚ)/100) * ((10 : ℕ) : ℚ))) = 2 := by
    have harg : linear_schedule ((77 : ℚ)/100) * ((10 : ℕ) : ℚ) = 23/10 := by
      rw [linear_schedule]
      norm_num
    rw [harg, round_eq]
    have hfl : (⌊(23/10 : ℚ) + 1/2⌋ : ℤ) = 2 := by
      rw [Int.floor_eq_iff]
      norm_num
    rw [hfl]
    rfl
  refine ⟨hcount, hround, ?_⟩
  rw [hcount, hround]
  decide

/-- C4 amended: for each example with masked fraction `p = schedule_fn(r)`,
the number of positions replaced by `mask_id` is `max(1, ceil(p * L))` —
the clamp to at least `1.0` happens before the strict float comparison
against integer ranks, which realizes a ceiling, not a round-to-nearest;
at least one position is always masked. -/
theorem c4_amended_ceil_count (f : ℚ → ℚ) (r : ℚ) {n : ℕ} (perm : Fin n → Fin n)
    (hperm : Function.Bijective perm) (hn : 1 ≤ n)
    (hp1 : f r ≤ 1) :
    maskedCountB (trainMask perm (numTokensMask (f r) n)) =
        max 1 (⌈f r * (n : ℚ)⌉).toNat ∧
      1 ≤ maskedCountB (trainMask perm (numTokensMask (f r) n)) := by
  have hceil_le : (⌈f r * (n : ℚ)⌉ : ℤ) ≤ n := by
    have hle : f r * (n : ℚ) ≤ (n : ℚ) := by
      calc f r * (n : ℚ) ≤ 1 * n := mul_le_mul_of_nonneg_right hp1 (Nat.cast_nonneg n)
        _ = n := one_mul _
    have := Int.ceil_le_ceil hle
    rwa [Int.ceil_natCast] at this
  rw [trainMask_count hperm, ceil_numTokensMask]
  constructor
  · omega
  · omega

/-- Witness for the amended C4 at `p = 1/2`, `L = 4`, identity permutation. -/
theorem c4_amended_ceil_count_witness :
    maskedCountB (trainMask (fun j : Fin 4 => j)
        (numTokensMask (linear_schedule (1/2)) 4)) =
        max 1 (⌈linear_schedule ((1 : ℚ)/2) * ((4 : ℕ) : ℚ)⌉).toNat ∧
      1 ≤ maskedCountB (trainMask (fun j : Fin 4 => j)
        (numTokensMask (linear_schedule (1/2)) 4)) :=
  c4_amended_ceil_count linear_schedule (1/2) (fun j => j)
    (by exact Function.bijective_id) (by omega) (by rw [linear_schedule]; norm_num)

theorem maskSelect_length {n : ℕ} {α : Type} (mask : Fin n → Bool) (v : Fin n → α) :
    (maskSelect mask v).length = maskedCountB mask := by
  classical
  rw [maskSelect, List.length_map, maskedCountB]
  rw [← List.toFinset_finRange (n := n)]
  rw [← List.toFinset_filter]
  rw [List.toFinset_card_of_nodup ((List.nodup_finRange n).filter _)]

/-- At least one position is always masked in training: the clamped target
count is at least `1`, and rank `0` always satisfies `0 < c`. -/
theorem trainMask_count_pos {n : ℕ} {perm : Fin n → Fin n}
    (hsurj : Function.Surjective perm) (hn : 1 ≤ n) (p : ℚ) :
    1 ≤ maskedCountB (trainMask perm (numTokensMask p n)) := by
  classical
  obtain ⟨j, hj⟩ := hsurj ⟨0, by omega⟩
  have hmask : trainMask perm (numTokensMask p n) j = true := by
    rw [trainMask, hj]
    simp only [decide_eq_true_eq, Nat.cast_zero]
    calc ((0 : ℕ) : ℚ) < 1 := by norm_num
      _ ≤ numTokensMask p n := le_max_right _ _
  have hmem : j ∈ Finset.univ.filter
      fun q => trainMask perm (numTokensMask p n) q = true := by
    simp [hmask]
  rw [maskedCountB]
  exact Finset.card_pos.mpr ⟨j, hmem⟩

/-- C6: the training loss is computed from only the logits and original
token ids at masked positions — any two runs whose logits and targets agree
at the masked positions yield the same loss, for every cross-entropy
reduction `ce`; exactly `m = maskedCountB` positions are gathered into the
loss for each example, and `m ≥ 1`. -/
theorem c6_loss_from_masked_positions_only (mask_id : ℕ) {n V : ℕ} (f : ℚ → ℚ) (r : ℚ)
    (perm : Fin n → Fin n) (net nett : (Fin n → ℕ) → Fin n → Fin V → ℚ)
    (ce : List (Fin V → ℚ) → List ℕ → ℚ) (x xx : Fin n → ℕ)
    (hn : 1 ≤ n) (hsurj : Function.Surjective perm)
    (hagree : ∀ j : Fin n, trainMask perm (numTokensMask (f r) n) j = true →
      net (maskedInput mask_id (trainMask perm (numTokensMask (f r) n)) x) j =
          nett (maskedInput mask_id (trainMask perm (numTokensMask (f r) n)) xx) j ∧
        x j = xx j) :
    (forward mask_id f r perm net ce x).1 = (forward mask_id f r perm nett ce xx).1 ∧
      (maskSelect (trainMask perm (numTokensMask (f r) n)) x).length =
        maskedCountB (trainMask perm (numTokensMask (f r) n)) ∧
      1 ≤ maskedCountB (trainMask perm (numTokensMask (f r) n)) := by
  refine ⟨?_, maskSelect_length _ _, trainMask_count_pos hsurj hn (f r)⟩
  show ce (maskSelect (trainMask perm (numTokensMask (f r) n))
        (net (maskedInput mask_id (trainMask perm (numTokensMask (f r) n)) x)))
      (maskSelect (trainMask perm (numTokensMask (f r) n)) x) =
    ce (maskSelect (trainMask perm (numTokensMask (f r) n))
        (nett (maskedInput mask_id (trainMask perm (numTokensMask (f r) n)) xx)))
      (maskSelect (trainMask perm (numTokensMask (f r) n)) xx)
  have h1 : maskSelect (trainMask perm (numTokensMask (f r) n))
        (net (maskedInput mask_id (trainMask perm (numTokensMask (f r) n)) x)) =
      maskSelect (trainMask perm (numTokensMask (f r) n))
        (nett (maskedInput mask_id (trainMask perm (numTokensMask (f r) n)) xx)) := by
    rw [maskSelect, maskSelect]
    apply List.map_congr_left
    intro j hj
    exact (hagree j (by simpa using (List.mem_filter.mp hj).2)).1
  have h2 : maskSelect (trainMask perm (numTokensMask (f r) n)) x =
      maskSelect (trainMask perm (numTokensMask (f r) n)) xx := by
    rw [maskSelect, maskSelect]
    apply List.map_congr_left
    intro j hj
    exact (hagree j (by simpa using (List.mem_filter.mp hj).2)).2
  rw [h1, h2]

/-- Witness for C6 with `n = 6`, `V = 2`, identity permutation, a run
compared against itself. -/
theorem c6_loss_from_masked_positions_only_witness :
    (forward 9 (n := 6) (V := 2) linear_schedule (1/2) (fun j => j)
          (fun _ _ _ => 0) (fun _ _ => 0) (fun _ => 1)).1 =
        (forward 9 (n := 6) (V := 2) linear_schedule (1/2) (fun j => j)
          (fun _ _ _ => 0) (fun _ _ => 0) (fun _ => 1)).1 ∧
      (maskSelect (trainMask (fun j : Fin 6 => j)
          (numTokensMask (linear_schedule (1/2)) 6)) (fun _ => 1)).length =
        maskedCountB (trainMask (fun j : Fin 6 => j)
          (numTokensMask (linear_schedule (1/2)) 6)) ∧
      1 ≤ maskedCountB (trainMask (fun j : Fin 6 => j)
          (numTokensMask (linear_schedule (1/2)) 6)) :=
  c6_loss_from_masked_positions_only 9 linear_schedule (1/2) (fun j => j)
    (fun _ _ _ => 0) (fun _ _ _ => 0) (fun _ _ => 0) (fun _ => 1) (fun _ => 1)
    (by omega) Function.surjective_id (fun j _ => ⟨rfl, rfl⟩)

/-- C10: the training forward pass never mutates its input batch `x`: the
masked input is a fresh buffer (`torch.where` allocates), so the buffer the
caller handed in holds exactly its original token ids after the call — even
at positions the fresh buffer overwrote with `mask_id`. -/
theorem c10_forward_never_mutates_input (mask_id : ℕ) {n V : ℕ} (f : ℚ → ℚ) (r : ℚ)
    (perm : Fin n → Fin n) (net : (Fin n → ℕ) → Fin n → Fin V → ℚ)
    (ce : List (Fin V → ℚ) → List ℕ → ℚ) (x : Fin n → ℕ) :
    (forward mask_id f r perm net ce x).2 = x ∧
      ∀ j : Fin n, trainMask perm (numTokensMask (f r) n) j = true →
        maskedInput mask_id (trainMask perm (numTokensMask (f r) n)) x j = mask_id ∧
          (forward mask_id f r perm net ce x).2 j = x j := by
  refine ⟨rfl, fun j hj => ⟨?_, rfl⟩⟩
  rw [maskedInput, if_pos hj]

/-- Witness for C10: a masked position of a concrete call holds `mask_id` in
the fresh buffer while the input buffer still holds the original token. -/
theorem c10_forward_never_mutates_input_witness :
    maskedInput 9 (trainMask (fun j : Fin 2 => j)
        (numTokensMask (linear_schedule 0) 2)) (fun _ => 1) ⟨0, by omega⟩ = 9 ∧
      (forward 9 (n := 2) (V := 3) linear_schedule 0 (fun j => j)
        (fun _ _ _ => 0) (fun _ _ => 0) (fun _ => 1)).2 ⟨0, by omega⟩ =
        (fun _ : Fin 2 => 1) ⟨0, by omega⟩ :=
  (c10_forward_never_mutates_input 9 (n := 2) (V := 3) linear_schedule 0 (fun j => j)
      (fun _ _ _ => 0) (fun _ _ => 0) (fun _ => 1)).2 ⟨0, by omega⟩ (by
    rw [trainMask]
    simp only [decide_eq_true_eq, Nat.cast_zero]
    calc ((0 : ℕ) : ℚ) < 1 := by norm_num
      _ ≤ numTokensMask (linear_schedule 0) 2 := le_max_right _ _)

end NAW
